import Mathlib

/-!
Verification of the genetic ODE symbolic-regression core.

The definitions below are a shallow embedding of the Rust sources:
`src/operator.rs`, `src/ode.rs`, `src/expr.rs`, `src/population.rs`.
Machine floats (`f64`) are modelled by an abstract value type or by `ℚ`;
random draws are modelled as explicit choice arguments; panics are
modelled by `Option` results (`none` = panic).
-/

namespace GeneticOde

/-- Operators of an expression, mirroring `Operator` in `ode.rs`:
the two free variables, constants, and unary/binary functions.
The value type `α` stands for `f64`. -/
inductive Op (α : Type) where
  | time : Op α
  | position : Op α
  | const : α → Op α
  | unary : (α → α) → Op α
  | binary : (α → α → α) → Op α

/-- Net change an operator makes to the pending-arity counter
(`args_needed` in the source): terminals decrement by one, unaries leave
it unchanged, binaries increment by one. -/
def Op.delta {α : Type} : Op α → Int
  | .time => -1
  | .position => -1
  | .const _ => -1
  | .unary _ => 0
  | .binary _ => 1

/-- Left-to-right scan of the pending-arity counter starting at `c`:
every token must be reached with a strictly positive counter, and the
counter must be exactly `0` after the last token.  `wfFrom 1` is the
arity-balance invariant of the spec. -/
def wfFrom {α : Type} : Int → List (Op α) → Bool
  | c, [] => c == 0
  | c, op :: rest => decide (0 < c) && wfFrom (c + op.delta) rest

/-- Arity-balance invariant: the scan starting at `1` reaches `0` exactly
at the last token and at no earlier token. -/
def wfB {α : Type} (l : List (Op α)) : Bool :=
  wfFrom 1 l

/-- Grammar of well-formed token sequences in Polish notation: a terminal,
a unary operator followed by a well-formed operand, or a binary operator
followed by two well-formed operands. -/
inductive WF {α : Type} : List (Op α) → Prop
  | terminal (op : Op α) (h : op.delta = -1) : WF [op]
  | unary (f : α → α) (e : List (Op α)) : WF e → WF (.unary f :: e)
  | binary (f : α → α → α) (e₁ e₂ : List (Op α)) :
      WF e₁ → WF e₂ → WF (.binary f :: (e₁ ++ e₂))

/-- One step of the stack machine of `Expr::eval`: terminals push a value,
a unary pops one operand, a binary pops two; popping an empty stack is the
`EvaluationError` panic, modelled as `none`. -/
def stepOp {α : Type} (t x : α) : Op α → List α → Option (List α)
  | .time, st => some (t :: st)
  | .position, st => some (x :: st)
  | .const v, st => some (v :: st)
  | .unary f, a :: st => some (f a :: st)
  | .unary _, [] => none
  | .binary f, a :: b :: st => some (f a b :: st)
  | .binary _, _ => none

/-- Run the stack machine over a token list (already reversed, since
`Expr::eval` iterates the tokens in reverse order). -/
def runRev {α : Type} (t x : α) : List (Op α) → List α → Option (List α)
  | [], st => some st
  | op :: rest, st =>
    match stepOp t x op st with
    | none => none
    | some st₁ => runRev t x rest st₁

/-- Evaluator `Expr::eval`: process the tokens in reverse order with a
value stack; the result is the single remaining value, and a stack
underflow or a final stack depth other than one is the `EvaluationError`
panic, modelled as `none`. -/
def evalE {α : Type} (t x : α) (e : List (Op α)) : Option α :=
  match runRev t x e.reverse [] with
  | some [v] => some v
  | _ => none

/-- Random draws available to one iteration of `Expr::generate`:
the five-way split of the source collapses cases `0`, `1`, `2` to the two
variables and an anonymous constant, and cases `3`, `4` to
`map.rand_operator()`, which may return any operator registered in the
map. -/
inductive GenChoice (α : Type) where
  | time : GenChoice α
  | position : GenChoice α
  | const : α → GenChoice α
  | fromMap : Op α → GenChoice α

/-- Token pushed by a draw of `Expr::generate`. -/
def GenChoice.op {α : Type} : GenChoice α → Op α
  | .time => .time
  | .position => .position
  | .const v => .const v
  | .fromMap o => o

/-- Loop of `Expr::generate`: push the drawn token, update `args_needed`,
and stop exactly when the counter reaches `0`.  The source loop has no
iteration cap, so the embedding carries fuel and a finite list of draws;
`none` models a run that has not yet terminated. -/
def genLoop {α : Type} :
    Nat → List (GenChoice α) → List (Op α) → Int → Option (List (Op α))
  | 0, _, _, _ => none
  | _ + 1, [], _, _ => none
  | fuel + 1, c :: cs, acc, n =>
    let op := c.op
    let acc₁ := acc ++ [op]
    let n₁ := n + op.delta
    if n₁ = 0 then some acc₁ else genLoop fuel cs acc₁ n₁

/-- Random generation `Expr::generate`: run the loop with `args_needed`
initialized to `1` and an empty token list. -/
def generate {α : Type} (fuel : Nat) (cs : List (GenChoice α)) :
    Option (List (Op α)) :=
  genLoop fuel cs [] 1

/-- Forward scan of `Expr::sub_expr`: starting at index `e` with counter
`n`, advance `end` until the counter reaches `0`, returning the inclusive
end index of the minimal balanced span. -/
def spanEnd {α : Type} : List (Op α) → Nat → Int → Nat
  | [], e, _ => e
  | op :: rest, e, n =>
    let n₁ := n + op.delta
    if n₁ = 0 then e else spanEnd rest (e + 1) n₁

/-- Start and inclusive end of the random balanced span of `ops` for the
raw draw `r` (the source computes `start = rand % len`). -/
def spanOf {α : Type} (ops : List (Op α)) (r : Nat) : Nat × Nat :=
  let start := r % ops.length
  (start, spanEnd (ops.drop start) start 1)

/-- Extracted sub-expression `ops[start..=end]`, as built by
`Expr::sub_expr`. -/
def subExpr {α : Type} (ops : List (Op α)) (r : Nat) : List (Op α) :=
  let se := spanOf ops r
  (ops.drop se.1).take (se.2 - se.1 + 1)

/-- Splice of `Expr::crossover`: replace the balanced span of `self`
chosen by draw `r` with the fragment `sub`
(`self[..start] ++ sub ++ self[end+1..]`).  This is the exact splice of
the `crossover` of `expr.rs`, whose argument is an already extracted
sub-expression. -/
def splice {α : Type} (self sub : List (Op α)) (r : Nat) : List (Op α) :=
  let se := spanOf self r
  self.take se.1 ++ sub ++ self.drop (se.2 + 1)

/-- Crossover of `ode.rs`: draw a balanced span in `self` (draw `r₁`) and
a balanced span in `other` (draw `r₂`), and replace the former with the
latter. -/
def crossoverOde {α : Type} (self other : List (Op α)) (r₁ r₂ : Nat) :
    List (Op α) :=
  splice self (subExpr other r₂) r₁

/-- Mutation of `ode.rs`: build a singleton expression holding one
randomly chosen reserved variable and cross it into `self`.  `v` is the
coin flip choosing the variable, `r₁` the span draw inside `self`, `r₂`
the (irrelevant) span draw inside the singleton. -/
def mutateOde {α : Type} (self : List (Op α)) (v : Bool) (r₁ r₂ : Nat) :
    List (Op α) :=
  let var : Op α := if v then .time else .position
  crossoverOde self [var] r₁ r₂

/-- Operator identity as used for the `HashMap` keys of `operator.rs`:
Rust compares `Unary`/`Binary` variants by function pointer and constants
by bit pattern, modelled by opaque numeric identities. -/
inductive OperatorKey where
  | time : OperatorKey
  | position : OperatorKey
  | constant : Nat → OperatorKey
  | unary : Nat → OperatorKey
  | binary : Nat → OperatorKey
deriving DecidableEq

/-- Unicode `char::is_alphanumeric` of Rust, modelled on ASCII. -/
def rustIsAlphanumeric (c : Char) : Bool := c.isAlphanum

/-- Unicode `char::is_numeric` of Rust, modelled on ASCII. -/
def rustIsNumeric (c : Char) : Bool := c.isDigit

/-- Rust `str::starts_with(|c| c.is_numeric())`: false on the empty
string. -/
def startsWithNumeric (tok : List Char) : Bool :=
  match tok with
  | [] => false
  | c :: _ => rustIsNumeric c

/-- Entries of the `HashMap<Operator, &str>` held by `OperatorMap`,
modelled as an association list with unique keys. -/
def MapEntries : Type := List (OperatorKey × List Char)

/-- Lookup of a key's token in the map. -/
def lookupKey (m : MapEntries) (op : OperatorKey) : Option (List Char) :=
  match m with
  | [] => none
  | (k, v) :: rest => if k = op then some v else lookupKey rest op

/-- Record a binding, overwriting any existing binding of the same key —
the `HashMap::insert` overwrite semantics. -/
def setKey (m : MapEntries) (op : OperatorKey) (tok : List Char) :
    MapEntries :=
  match m with
  | [] => [(op, tok)]
  | (k, v) :: rest =>
    if k = op then (op, tok) :: rest else (k, v) :: setKey rest op tok

/-- Reserved token of the time variable. -/
def timeToken : List Char := ['T', 'I', 'M', 'E']

/-- Reserved token of the position variable. -/
def posToken : List Char := ['P', 'O', 'S']

/-- `OperatorMap::new`: the map seeded with the two reserved variables. -/
def mapNew : MapEntries :=
  [(.time, timeToken), (.position, posToken)]

/-- `OperatorMap::insert`: panic (`none`) when the token holds a
non-alphanumeric character, else panic when it begins with a numeric
character, else record the mapping. -/
def insertOp (m : MapEntries) (op : OperatorKey) (tok : List Char) :
    Option MapEntries :=
  if !(tok.all rustIsAlphanumeric) then none
  else if startsWithNumeric tok then none
  else some (setKey m op tok)

/-- Token validity as the spec states it (§3): non-empty, alphanumeric,
not starting with a digit, and not colliding with the two reserved
tokens.  Written from the spec's words, to compare the spec's rule with
the code's check. -/
def specTokenValid (tok : List Char) : Bool :=
  !tok.isEmpty && tok.all rustIsAlphanumeric && !startsWithNumeric tok &&
    !(tok == timeToken || tok == posToken)

/-- One 4th-order Runge-Kutta step (`Expr::next` of `ode.rs`) on a
`(time, position)` state, with `f` standing for `self.eval`. -/
def rkNext (f : ℚ → ℚ → ℚ) (s : ℚ × ℚ) (step : ℚ) : ℚ × ℚ :=
  let k1 := f s.1 s.2
  let k2 := f (s.1 + step / 2) (s.2 + step * k1 / 2)
  let k3 := f (s.1 + step / 2) (s.2 + step * k2 / 2)
  let k4 := f (s.1 + step) (s.2 + step * k3)
  (s.1 + step, s.2 + (step / 6) * (k1 + 2 * k2 + 2 * k3 + k4))

/-- Loop of `Expr::fitness` of `ode.rs`: accumulate the absolute shoelace
area of the triangle (current simulated point, previous data point, next
data point), advance the simulation one Runge-Kutta step, and slide the
data window once the simulated time passes the next sample; the loop has
no iteration bound in the source, so the embedding carries fuel. -/
def fitOdeLoop (f : ℚ → ℚ → ℚ) (step : ℚ) :
    Nat → ℚ × ℚ → ℚ × ℚ → List (ℚ × ℚ) → ℚ × ℚ → ℚ → Option ℚ
  | 0, _, _, _, _, _ => none
  | fuel + 1, prev, next, rest, curr, acc =>
    let area := |(curr.1 - next.1) * (prev.2 - curr.2) -
        (curr.1 - prev.1) * (next.2 - curr.2)| / 2
    let acc₁ := acc + area
    let curr₁ := rkNext f curr step
    if next.1 ≤ curr₁.1 then
      match rest with
      | [] => some acc₁
      | n₂ :: rest₁ => fitOdeLoop f step fuel next n₂ rest₁ curr₁ acc₁
    else fitOdeLoop f step fuel prev next rest curr₁ acc₁

/-- `Expr::fitness` of `ode.rs` with `f` standing for `self.eval`:
`none` models the `unwrap` panic on an empty dataset and fuel exhaustion
of the unbounded loop; a single-sample dataset skips the loop and yields
`0`. -/
def fitnessOde (f : ℚ → ℚ → ℚ) (states : List (ℚ × ℚ)) (step : ℚ)
    (fuel : Nat) : Option ℚ :=
  match states with
  | [] => none
  | [_] => some 0
  | p :: n :: rest => fitOdeLoop f step fuel p n rest p 0

/-- Fixed integrator step `TIME_DELTA` of `expr.rs`. -/
def timeDelta : ℚ := 1 / 100

/-- Loop of `Expr::fitness` of `expr.rs`: per-segment deviation by
Heron's formula (`sq` stands for `f64::sqrt`), then one Runge-Kutta step
with the fixed `TIME_DELTA`, sliding the data window once the simulated
time passes the next sample. -/
def fitExprLoop (f : ℚ → ℚ → ℚ) (sq : ℚ → ℚ) :
    Nat → ℚ → ℚ → ℚ → ℚ → List ℚ → List ℚ → ℚ → ℚ → ℚ → Option ℚ
  | 0, _, _, _, _, _, _, _, _, _ => none
  | fuel + 1, prevT, nextT, prevP, nextP, restT, restP, curT, curP, acc =>
    let a := sq ((curT - prevT) ^ 2 + (curP - prevP) ^ 2)
    let b := sq ((nextT - prevT) ^ 2 + (nextP - prevP) ^ 2)
    let c := sq ((nextT - curT) ^ 2 + (nextP - curP) ^ 2)
    let s := (a + b + c) / 2
    let h := (2 / b) * sq |s * (s - a) * (s - b) * (s - c)|
    let acc₁ := acc + h
    let k1 := timeDelta * f curT curP
    let k2 := timeDelta * f (curT + timeDelta / 2) (curP + k1 / 2)
    let k3 := timeDelta * f (curT + timeDelta / 2) (curP + k2 / 2)
    let k4 := timeDelta * f (curT + timeDelta) (curP + k3)
    let curT₁ := curT + timeDelta
    let curP₁ := curP + (k1 + 2 * k2 + 2 * k3 + k4) / 6
    if nextT ≤ curT₁ then
      match restT, restP with
      | t₂ :: restT₁, p₂ :: restP₁ =>
        fitExprLoop f sq fuel nextT t₂ nextP p₂ restT₁ restP₁ curT₁ curP₁ acc₁
      | _, _ => some acc₁
    else fitExprLoop f sq fuel prevT nextT prevP nextP restT restP curT₁ curP₁ acc₁

/-- `Expr::fitness` of `expr.rs` with `f` for `self.eval` and `sq` for
`f64::sqrt`: panic (`none`) on length-mismatched or empty data; a
single-sample dataset skips the loop and yields `0`. -/
def fitnessExpr (f : ℚ → ℚ → ℚ) (sq : ℚ → ℚ)
    (timeData positionData : List ℚ) (fuel : Nat) : Option ℚ :=
  if timeData.length ≠ positionData.length then none
  else
    match timeData, positionData with
    | [], _ => none
    | _, [] => none
    | [_], [_] => some 0
    | t₀ :: t₁ :: restT, p₀ :: p₁ :: restP =>
      fitExprLoop f sq fuel t₀ t₁ p₀ p₁ restT restP t₀ p₀ 0
    | _, _ => none

/-- Model of an `f64` fitness value: either `NaN` or a numeric value
(non-`NaN` floats are totally ordered, modelled by `ℚ`). -/
inductive FVal where
  | nan : FVal
  | num : ℚ → FVal

/-- Rust `f64::is_nan`. -/
def FVal.isNan : FVal → Bool
  | .nan => true
  | .num _ => false

/-- An `Individual` of `population.rs`: an expression paired with its
fitness. -/
structure Individual where
  fitness : FVal
  expr : List (Op ℚ)

/-- Comparator `Ord::cmp` of `Individual`, with the source's match arms in
order: two `NaN`s are equal, a non-`NaN` is less than a `NaN`, a `NaN` is
greater than a non-`NaN`, otherwise the numeric comparison. -/
def cmpInd (a b : Individual) : Ordering :=
  match a.fitness, b.fitness with
  | .nan, .nan => .eq
  | .num _, .nan => .lt
  | .nan, .num _ => .gt
  | .num p, .num q => compare p q

/-- Insert into a sorted list, placing the new element after every
strictly smaller one and before the first element that is not strictly
smaller. -/
def insertInd (x : Individual) : List Individual → List Individual
  | [] => [x]
  | y :: l => if cmpInd y x = .lt then y :: insertInd x l else x :: y :: l

/-- Stable sort by the `Individual` comparator, modelling `Vec::sort`
(a stable sort by `Ord::cmp`); the stable sorted permutation of a list is
unique, so insertion sort is an exact model. -/
def sortInds : List Individual → List Individual
  | [] => []
  | x :: l => insertInd x (sortInds l)

/-- Float comparison `prev.fitness <= num` of `Population::closest`:
false when the fitness is `NaN`. -/
def fleB : FVal → ℚ → Bool
  | .nan, _ => false
  | .num q, r => decide (q ≤ r)

/-- Float comparison `next.fitness >= num` of `Population::closest`:
false when the fitness is `NaN`. -/
def fgeB : FVal → ℚ → Bool
  | .nan, _ => false
  | .num q, r => decide (r ≤ q)

/-- Loop of `Population::closest`, with `x` the current `prev`: return
`prev` at the first adjacent pair with `prev.fitness ≤ num` and
`next.fitness ≥ num`; if no pair matches, fall through to the last
element. -/
def closestAux (x : Individual) (num : ℚ) : List Individual → Individual
  | [] => x
  | y :: rest =>
    if fleB x.fitness num && fgeB y.fitness num then x
    else closestAux y num rest

/-- `Population::closest`: `none` models the `unwrap` panic on an empty
population. -/
def closest (pop : List Individual) (num : ℚ) : Option Individual :=
  match pop with
  | [] => none
  | x :: rest => some (closestAux x num rest)

/-- Parent selection as the spec states it: the first Individual in
ascending fitness order whose fitness is `≥` the sampled value, else the
single best (first) Individual.  Written from the spec's words, to
compare with `closest`. -/
def closestSpec (pop : List Individual) (num : ℚ) : Option Individual :=
  match pop.find? (fun a => fgeB a.fitness num) with
  | some a => some a
  | none => pop.head?

/-- Default used to totalize `closest` inside `evolve`; never reached on
the nonempty populations `evolve` accepts. -/
def defaultInd : Individual := ⟨.nan, []⟩

/-- One offspring of `Population::evolve`: select two parents by
`closest` on the sorted population at the two sampled values, extract a
random sub-expression of the second parent, splice it into the first
parent at a random span (the `crossover` of `expr.rs`), and recompute the
fitness. -/
def mkOffspring (sorted : List Individual) (fitFn : List (Op ℚ) → FVal)
    (r₁ r₂ : ℚ) (sOther sSelf : Nat) : Individual :=
  let i₁ := (closest sorted r₁).getD defaultInd
  let i₂ := (closest sorted r₂).getD defaultInd
  let ex := splice i₁.expr (subExpr i₂.expr sOther) sSelf
  ⟨fitFn ex, ex⟩

/-- `Population::evolve`, parameterized over the fitness scorer `fitFn`
(the source calls `diff_eq::fitness`, which is not among the sources),
the pair `samples i` of values drawn from the `Exp(0.5)` distribution at
iteration `i`, and the pair `choices i` of span draws: panic (`none`) on
an empty population; otherwise sort, copy the first `size / 10`
individuals unchanged, and fill the remaining `size - size / 10` slots
with offspring. -/
def evolve (pop : List Individual) (fitFn : List (Op ℚ) → FVal)
    (samples : Nat → ℚ × ℚ) (choices : Nat → Nat × Nat) :
    Option (List Individual) :=
  match pop with
  | [] => none
  | _ :: _ =>
    let sorted := sortInds pop
    let k := pop.length / 10
    let offs := (List.range (pop.length - k)).map fun i =>
      mkOffspring sorted fitFn (samples i).1 (samples i).2
        (choices i).1 (choices i).2
    some (sorted.take k ++ offs)

theorem WF.ne_nil {α : Type} {e : List (Op α)} (h : WF e) : e ≠ [] := by
  cases h <;> simp

theorem wfFrom_nonpos {α : Type} {c : Int} (hc : c ≤ 0) (op : Op α)
    (rest : List (Op α)) : wfFrom c (op :: rest) = false := by
  have h0 : ¬ (0 : Int) < c := by omega
  simp [wfFrom, h0]

theorem wfFrom_append {α : Type} {e : List (Op α)} (h : WF e) :
    ∀ (B : List (Op α)) (c : Int), 1 ≤ c →
      wfFrom c (e ++ B) = wfFrom (c - 1) B := by
  induction h with
  | terminal op hop =>
    intro B c hc
    have h0 : (0 : Int) < c := by omega
    have hsub : c + Op.delta op = c - 1 := by rw [hop]; ring
    simp [wfFrom, hsub, h0]
  | unary f e _ ih =>
    intro B c hc
    have h0 : (0 : Int) < c := by omega
    have hadd : c + Op.delta (Op.unary f) = c := by
      simp [Op.delta]
    simp [wfFrom, hadd, h0, ih B c hc]
  | binary f e₁ e₂ _ _ ih₁ ih₂ =>
    intro B c hc
    have h0 : (0 : Int) < c := by omega
    have hadd : c + Op.delta (Op.binary f) = c + 1 := by
      simp [Op.delta]
    have h1 : wfFrom (c + 1) (e₁ ++ (e₂ ++ B)) = wfFrom c (e₂ ++ B) := by
      have h2 := ih₁ (e₂ ++ B) (c + 1) (by omega)
      rw [show c + 1 - 1 = c by ring] at h2
      exact h2
    simp [wfFrom, hadd, h0, List.append_assoc, h1, ih₂ B c hc]

theorem wfB_of_WF {α : Type} {e : List (Op α)} (h : WF e) :
    wfB e = true := by
  have := wfFrom_append h [] 1 (le_refl 1)
  simpa [wfB, wfFrom] using this

theorem wfFrom_decomp {α : Type} :
    ∀ (l : List (Op α)) (k : Nat), wfFrom (k : Int) l = true →
      ∃ es : List (List (Op α)), l = es.flatten ∧ es.length = k ∧
        ∀ e ∈ es, WF e := by
  intro l
  induction l with
  | nil =>
    intro k h
    simp only [wfFrom, beq_iff_eq] at h
    have hk : k = 0 := by exact_mod_cast h
    exact ⟨[], by simp, by simp [hk], by simp⟩
  | cons op rest ih =>
    intro k h
    simp only [wfFrom, Bool.and_eq_true, decide_eq_true_eq] at h
    obtain ⟨hk, hrest⟩ := h
    have hk1 : 1 ≤ k := by exact_mod_cast hk
    cases op with
    | time =>
      have hcast : (k : Int) + Op.delta (Op.time (α := α)) =
          ((k - 1 : Nat) : Int) := by simp [Op.delta]; omega
      rw [hcast] at hrest
      obtain ⟨es, hjoin, hlen, hwf⟩ := ih (k - 1) hrest
      refine ⟨[Op.time] :: es, by simp [hjoin], by simp [hlen]; omega, ?_⟩
      intro e he
      rcases List.mem_cons.mp he with h1 | h1
      · exact h1 ▸ WF.terminal _ rfl
      · exact hwf e h1
    | position =>
      have hcast : (k : Int) + Op.delta (Op.position (α := α)) =
          ((k - 1 : Nat) : Int) := by simp [Op.delta]; omega
      rw [hcast] at hrest
      obtain ⟨es, hjoin, hlen, hwf⟩ := ih (k - 1) hrest
      refine ⟨[Op.position] :: es, by simp [hjoin], by simp [hlen]; omega, ?_⟩
      intro e he
      rcases List.mem_cons.mp he with h1 | h1
      · exact h1 ▸ WF.terminal _ rfl
      · exact hwf e h1
    | const v =>
      have hcast : (k : Int) + Op.delta (Op.const v) =
          ((k - 1 : Nat) : Int) := by simp [Op.delta]; omega
      rw [hcast] at hrest
      obtain ⟨es, hjoin, hlen, hwf⟩ := ih (k - 1) hrest
      refine ⟨[Op.const v] :: es, by simp [hjoin], by simp [hlen]; omega, ?_⟩
      intro e he
      rcases List.mem_cons.mp he with h1 | h1
      · exact h1 ▸ WF.terminal _ rfl
      · exact hwf e h1
    | unary f =>
      have hcast : (k : Int) + Op.delta (Op.unary f) = (k : Int) := by
        simp [Op.delta]
      rw [hcast] at hrest
      obtain ⟨es, hjoin, hlen, hwf⟩ := ih k hrest
      cases es with
      | nil => simp at hlen; omega
      | cons e es₁ =>
        refine ⟨(Op.unary f :: e) :: es₁, by simp [hjoin], by simpa using hlen, ?_⟩
        intro e₀ he₀
        rcases List.mem_cons.mp he₀ with h1 | h1
        · exact h1 ▸ WF.unary f e (hwf e (by simp))
        · exact hwf e₀ (by simp [h1])
    | binary f =>
      have hcast : (k : Int) + Op.delta (Op.binary f) =
          ((k + 1 : Nat) : Int) := by simp [Op.delta]
      rw [hcast] at hrest
      obtain ⟨es, hjoin, hlen, hwf⟩ := ih (k + 1) hrest
      cases es with
      | nil => simp at hlen
      | cons e₁ es₁ =>
        cases es₁ with
        | nil => simp at hlen; omega
        | cons e₂ es₂ =>
          refine ⟨(Op.binary f :: (e₁ ++ e₂)) :: es₂,
            by simp [hjoin], by simpa using hlen, ?_⟩
          intro e₀ he₀
          rcases List.mem_cons.mp he₀ with h1 | h1
          · exact h1 ▸ WF.binary f e₁ e₂ (hwf e₁ (by simp)) (hwf e₂ (by simp))
          · exact hwf e₀ (by simp [h1])

theorem WF_of_wfB {α : Type} {l : List (Op α)} (h : wfB l = true) :
    WF l := by
  have h1 : wfFrom ((1 : Nat) : Int) l = true := by simpa [wfB] using h
  obtain ⟨es, hjoin, hlen, hwf⟩ := wfFrom_decomp l 1 h1
  cases es with
  | nil => simp at hlen
  | cons e es₁ =>
    cases es₁ with
    | nil =>
      have hl : l = e := by simpa using hjoin
      exact hl ▸ hwf e (by simp)
    | cons e₂ es₂ => simp at hlen

theorem runRev_append {α : Type} (t x : α) (l₁ l₂ : List (Op α))
    (st : List α) :
    runRev t x (l₁ ++ l₂) st =
      (runRev t x l₁ st).bind (fun st₁ => runRev t x l₂ st₁) := by
  induction l₁ generalizing st with
  | nil => simp [runRev]
  | cons op rest ih =>
    simp only [List.cons_append, runRev]
    cases stepOp t x op st with
    | none => rfl
    | some st₁ => exact ih st₁

theorem runRev_wf {α : Type} (t x : α) {e : List (Op α)} (h : WF e) :
    ∃ v, ∀ st, runRev t x e.reverse st = some (v :: st) := by
  induction h with
  | terminal op hop =>
    cases op with
    | time => exact ⟨t, fun st => rfl⟩
    | position => exact ⟨x, fun st => rfl⟩
    | const v => exact ⟨v, fun st => rfl⟩
    | unary f => simp [Op.delta] at hop
    | binary f => simp [Op.delta] at hop
  | unary f e _ ih =>
    obtain ⟨v, hv⟩ := ih
    refine ⟨f v, fun st => ?_⟩
    simp [List.reverse_cons, runRev_append, hv, runRev, stepOp]
  | binary f e₁ e₂ _ _ ih₁ ih₂ =>
    obtain ⟨v₁, hv₁⟩ := ih₁
    obtain ⟨v₂, hv₂⟩ := ih₂
    refine ⟨f v₁ v₂, fun st => ?_⟩
    simp [List.reverse_cons, List.reverse_append, List.append_assoc,
      runRev_append, hv₁, hv₂, runRev, stepOp]

theorem evalE_wf {α : Type} (t x : α) {e : List (Op α)} (h : WF e) :
    ∃ v, evalE t x e = some v := by
  obtain ⟨v, hv⟩ := runRev_wf t x h
  refine ⟨v, ?_⟩
  unfold evalE
  rw [hv []]

theorem evalE_binary_decomp {α : Type} (t x : α) (f : α → α → α)
    {e₁ e₂ : List (Op α)} (h₁ : WF e₁) (h₂ : WF e₂) {v₁ v₂ : α}
    (hv₁ : evalE t x e₁ = some v₁) (hv₂ : evalE t x e₂ = some v₂) :
    evalE t x (Op.binary f :: (e₁ ++ e₂)) = some (f v₁ v₂) := by
  obtain ⟨w₁, hw₁⟩ := runRev_wf t x h₁
  obtain ⟨w₂, hw₂⟩ := runRev_wf t x h₂
  have hv₁e : w₁ = v₁ := by
    unfold evalE at hv₁
    rw [hw₁ []] at hv₁
    simpa using hv₁
  have hv₂e : w₂ = v₂ := by
    unfold evalE at hv₂
    rw [hw₂ []] at hv₂
    simpa using hv₂
  have key : runRev t x (Op.binary f :: (e₁ ++ e₂)).reverse [] =
      some [f v₁ v₂] := by
    subst hv₁e
    subst hv₂e
    simp [List.reverse_cons, List.reverse_append, List.append_assoc,
      runRev_append, hw₁, hw₂, runRev, stepOp]
  unfold evalE
  rw [key]

theorem WF.length_pos {α : Type} {e : List (Op α)} (h : WF e) :
    1 ≤ e.length := by
  cases e with
  | nil => exact absurd rfl h.ne_nil
  | cons a l => simp

theorem Op.delta_lower {α : Type} (op : Op α) : -1 ≤ op.delta := by
  cases op <;> norm_num [Op.delta]

theorem genLoop_wf {α : Type} :
    ∀ (fuel : Nat) (cs : List (GenChoice α)) (acc : List (Op α)) (n : Int)
      (e : List (Op α)), 1 ≤ n → genLoop fuel cs acc n = some e →
      ∃ rest, e = acc ++ rest ∧ wfFrom n rest = true := by
  intro fuel
  induction fuel with
  | zero =>
    intro cs acc n e _ h
    simp [genLoop] at h
  | succ fuel ih =>
    intro cs acc n e hn h
    cases cs with
    | nil => simp [genLoop] at h
    | cons c cs =>
      simp only [genLoop] at h
      by_cases h0 : n + (GenChoice.op c).delta = 0
      · rw [if_pos h0] at h
        refine ⟨[c.op], ?_, ?_⟩
        · rw [← Option.some_inj, h]
        · have hn0 : (0 : Int) < n := by omega
          simp [wfFrom, h0, hn0]
      · rw [if_neg h0] at h
        have hlow := Op.delta_lower c.op
        have hn1 : 1 ≤ n + (GenChoice.op c).delta := by omega
        obtain ⟨rest, hrest, hwf⟩ := ih cs (acc ++ [c.op]) _ e hn1 h
        refine ⟨c.op :: rest, by simpa using hrest, ?_⟩
        have hn0 : (0 : Int) < n := by omega
        simp [wfFrom, hn0, hwf]

theorem generate_wf {α : Type} {fuel : Nat} {cs : List (GenChoice α)}
    {e : List (Op α)} (h : generate fuel cs = some e) : wfB e = true := by
  obtain ⟨rest, hrest, hwf⟩ := genLoop_wf fuel cs [] 1 e le_rfl h
  rw [hrest]
  simpa [wfB] using hwf

theorem spanEnd_through {α : Type} {e : List (Op α)} (h : WF e) :
    ∀ (rest : List (Op α)) (pos : Nat) (c : Int), 1 ≤ c →
      spanEnd (e ++ rest) pos c =
        if c = 1 then pos + (e.length - 1)
        else spanEnd rest (pos + e.length) (c - 1) := by
  induction h with
  | terminal op hop =>
    intro rest pos c hc
    simp only [List.singleton_append, spanEnd, hop, List.append_eq]
    by_cases h1 : c = 1
    · subst h1
      norm_num
    · rw [if_neg (by omega : ¬ c + -1 = 0), if_neg h1,
        show c + -1 = c - 1 by ring, List.length_singleton, List.nil_append]
  | unary f e he ih =>
    intro rest pos c hc
    simp only [List.cons_append, spanEnd, Op.delta, List.append_eq]
    rw [if_neg (by omega : ¬ c + 0 = 0), show c + 0 = c by ring,
      ih rest (pos + 1) c hc]
    have hlen := he.length_pos
    by_cases h1 : c = 1
    · rw [if_pos h1, if_pos h1]
      simp only [List.length_cons]
      omega
    · rw [if_neg h1, if_neg h1]
      have harg : pos + 1 + e.length = pos + (Op.unary f :: e).length := by
        simp only [List.length_cons]
        omega
      rw [harg]
  | binary f e₁ e₂ h₁ h₂ ih₁ ih₂ =>
    intro rest pos c hc
    simp only [List.cons_append, spanEnd, Op.delta, List.append_eq,
      List.append_assoc]
    rw [if_neg (by omega : ¬ c + 1 = 0),
      ih₁ (e₂ ++ rest) (pos + 1) (c + 1) (by omega),
      if_neg (by omega : ¬ c + 1 = 1),
      show c + 1 - 1 = c by ring,
      ih₂ rest (pos + 1 + e₁.length) c hc]
    have hl₁ := h₁.length_pos
    have hl₂ := h₂.length_pos
    by_cases h1 : c = 1
    · rw [if_pos h1, if_pos h1]
      simp only [List.length_cons, List.length_append]
      omega
    · rw [if_neg h1, if_neg h1]
      have harg : pos + 1 + e₁.length + e₂.length =
          pos + (Op.binary f :: (e₁ ++ e₂)).length := by
        simp only [List.length_cons, List.length_append]
        omega
      rw [harg]

theorem wfFrom_drop {α : Type} :
    ∀ (l : List (Op α)) (c : Int) (i : Nat), wfFrom c l = true →
      i < l.length → ∃ k : Nat, 1 ≤ k ∧ wfFrom (k : Int) (l.drop i) = true := by
  intro l
  induction l with
  | nil =>
    intro c i _ hi
    simp at hi
  | cons op rest ih =>
    intro c i h hi
    simp only [wfFrom, Bool.and_eq_true, decide_eq_true_eq] at h
    obtain ⟨hc, hrest⟩ := h
    cases i with
    | zero =>
      refine ⟨c.toNat, by omega, ?_⟩
      rw [List.drop_zero, show ((c.toNat : Int)) = c by omega]
      simp [wfFrom, hc, hrest]
    | succ i =>
      exact ih (c + op.delta) i hrest (by simpa using hi)

theorem subExpr_spec {α : Type} {ops : List (Op α)} (h : WF ops) (r : Nat) :
    WF (subExpr ops r) ∧
      ops.drop (r % ops.length) =
        subExpr ops r ++ ops.drop ((spanOf ops r).2 + 1) ∧
      (spanOf ops r).2 + 1 = r % ops.length + (subExpr ops r).length := by
  have hlen : 1 ≤ ops.length := h.length_pos
  have hslt : r % ops.length < ops.length := Nat.mod_lt _ (by omega)
  have hwfb : wfFrom (1 : Int) ops = true := wfB_of_WF h
  obtain ⟨k, hk1, hk⟩ := wfFrom_drop ops 1 (r % ops.length) hwfb hslt
  obtain ⟨es, hflat, hlenk, hwfes⟩ := wfFrom_decomp (ops.drop (r % ops.length)) k hk
  cases es with
  | nil =>
    rw [List.length_nil] at hlenk
    omega
  | cons e₁ es₁ =>
    have hwf1 : WF e₁ := hwfes e₁ (by simp)
    have h1len : 1 ≤ e₁.length := hwf1.length_pos
    have hdrop : ops.drop (r % ops.length) = e₁ ++ es₁.flatten := by
      simpa using hflat
    have hend : (spanOf ops r).2 = r % ops.length + (e₁.length - 1) := by
      show spanEnd (ops.drop (r % ops.length)) (r % ops.length) 1 =
        r % ops.length + (e₁.length - 1)
      rw [hdrop, spanEnd_through hwf1 es₁.flatten (r % ops.length) 1 le_rfl,
        if_pos rfl]
    have hsub : subExpr ops r = e₁ := by
      show (ops.drop (r % ops.length)).take
        ((spanOf ops r).2 - r % ops.length + 1) = e₁
      rw [hdrop, hend, show r % ops.length + (e₁.length - 1) -
        r % ops.length + 1 = e₁.length by omega]
      exact List.take_left e₁ es₁.flatten
    have hend1 : (spanOf ops r).2 + 1 = r % ops.length + e₁.length := by
      omega
    refine ⟨hsub ▸ hwf1, ?_, by rw [hsub]; exact hend1⟩
    rw [hsub, hend1, ← List.drop_drop, hdrop, List.drop_left e₁ es₁.flatten]

theorem wfFrom_replace {α : Type} {e e₁ : List (Op α)} (he : WF e)
    (he₁ : WF e₁) :
    ∀ (A B : List (Op α)) (c : Int),
      wfFrom c (A ++ e ++ B) = wfFrom c (A ++ e₁ ++ B) := by
  intro A
  induction A with
  | nil =>
    intro B c
    by_cases hc : 1 ≤ c
    · rw [List.nil_append, List.nil_append, wfFrom_append he B c hc,
        wfFrom_append he₁ B c hc]
    · cases e with
      | nil => exact absurd rfl he.ne_nil
      | cons o os =>
        cases e₁ with
        | nil => exact absurd rfl he₁.ne_nil
        | cons o₁ os₁ =>
          simp only [List.nil_append, List.cons_append]
          rw [wfFrom_nonpos (by omega) o (os ++ B),
            wfFrom_nonpos (by omega) o₁ (os₁ ++ B)]
  | cons a A ih =>
    intro B c
    simp only [List.cons_append, wfFrom, List.append_eq]
    rw [ih B (c + a.delta)]

theorem splice_wf {α : Type} {self sub : List (Op α)} (h : WF self)
    (hsub : WF sub) (r : Nat) : WF (splice self sub r) := by
  obtain ⟨hwfe, hdecomp, _⟩ := subExpr_spec h r
  have hself : self = self.take (r % self.length) ++ subExpr self r ++
      self.drop ((spanOf self r).2 + 1) := by
    conv_lhs => rw [← List.take_append_drop (r % self.length) self]
    rw [List.append_assoc, hdecomp]
  have hb : wfFrom (1 : Int) (splice self sub r) = true := by
    have hrepl := wfFrom_replace hwfe hsub (self.take (r % self.length))
      (self.drop ((spanOf self r).2 + 1)) 1
    have hb0 : wfFrom (1 : Int) (self.take (r % self.length) ++
        subExpr self r ++ self.drop ((spanOf self r).2 + 1)) = true := by
      rw [← hself]
      exact wfB_of_WF h
    rw [hrepl] at hb0
    simpa [splice, List.append_assoc] using hb0
  exact WF_of_wfB hb

theorem splice_length {α : Type} {self : List (Op α)} (h : WF self)
    (sub : List (Op α)) (r : Nat) :
    (splice self sub r).length =
      self.length - (subExpr self r).length + sub.length := by
  obtain ⟨hwfe, hdecomp, hend⟩ := subExpr_spec h r
  have hlen : 1 ≤ self.length := h.length_pos
  have hslt : r % self.length < self.length := Nat.mod_lt _ (by omega)
  have hdl : (self.drop (r % self.length)).length =
      self.length - r % self.length := List.length_drop _ _
  have hdl2 : (subExpr self r).length +
      (self.drop ((spanOf self r).2 + 1)).length =
      self.length - r % self.length := by
    rw [← List.length_append, ← hdecomp]
    exact hdl
  have hsub_le : (subExpr self r).length ≤ self.length - r % self.length := by
    omega
  have hfst : (spanOf self r).1 = r % self.length := rfl
  simp only [splice, List.length_append, List.length_take, List.length_drop,
    hfst]
  omega

theorem crossoverOde_wf {α : Type} {self other : List (Op α)} (h : WF self)
    (ho : WF other) (r₁ r₂ : Nat) : WF (crossoverOde self other r₁ r₂) :=
  splice_wf h (subExpr_spec ho r₂).1 r₁

theorem mutateOde_wf {α : Type} {self : List (Op α)} (h : WF self)
    (v : Bool) (r₁ r₂ : Nat) : WF (mutateOde self v r₁ r₂) := by
  refine crossoverOde_wf h ?_ r₁ r₂
  exact WF.terminal _ (by cases v <;> simp [Op.delta])

theorem cmpInd_nan_nan {a b : Individual} (ha : a.fitness.isNan = true)
    (hb : b.fitness.isNan = true) : cmpInd a b = .eq := by
  cases h₁ : a.fitness <;> cases h₂ : b.fitness <;>
    simp_all [cmpInd, FVal.isNan]

theorem cmpInd_num_nan {a b : Individual} (ha : a.fitness.isNan = false)
    (hb : b.fitness.isNan = true) : cmpInd a b = .lt := by
  cases h₁ : a.fitness <;> cases h₂ : b.fitness <;>
    simp_all [cmpInd, FVal.isNan]

theorem cmpInd_nan_num {a b : Individual} (ha : a.fitness.isNan = true)
    (hb : b.fitness.isNan = false) : cmpInd a b = .gt := by
  cases h₁ : a.fitness <;> cases h₂ : b.fitness <;>
    simp_all [cmpInd, FVal.isNan]

theorem cmpInd_self (a : Individual) : cmpInd a a = .eq := by
  cases h : a.fitness with
  | nan => simp [cmpInd, h]
  | num q => simp [cmpInd, h, compare_eq_iff_eq]

theorem cmpInd_swap (a b : Individual) : cmpInd a b = (cmpInd b a).swap := by
  cases h₁ : a.fitness with
  | nan =>
    cases h₂ : b.fitness <;> simp [cmpInd, h₁, h₂, Ordering.swap]
  | num p =>
    cases h₂ : b.fitness with
    | nan => simp [cmpInd, h₁, h₂, Ordering.swap]
    | num q =>
      simp only [cmpInd, h₁, h₂]
      rcases lt_trichotomy p q with h | h | h
      · rw [compare_lt_iff_lt.mpr h, compare_gt_iff_gt.mpr h]
        rfl
      · rw [h, compare_eq_iff_eq.mpr rfl]
        rfl
      · rw [compare_gt_iff_gt.mpr h, compare_lt_iff_lt.mpr h]
        rfl

theorem cmpInd_le_trans {a b c : Individual} (h₁ : cmpInd a b ≠ .gt)
    (h₂ : cmpInd b c ≠ .gt) : cmpInd a c ≠ .gt := by
  cases ha : a.fitness with
  | nan =>
    cases hb : b.fitness with
    | nan =>
      cases hc : c.fitness with
      | nan => simp [cmpInd, ha, hc]
      | num r => exact absurd (by simp [cmpInd, hb, hc]) h₂
    | num q => exact absurd (by simp [cmpInd, ha, hb]) h₁
  | num p =>
    cases hc : c.fitness with
    | nan => simp [cmpInd, ha, hc]
    | num r =>
      cases hb : b.fitness with
      | nan => exact absurd (by simp [cmpInd, hb, hc]) h₂
      | num q =>
        simp only [cmpInd, ha, hb] at h₁
        simp only [cmpInd, hb, hc] at h₂
        simp only [cmpInd, ha, hc]
        rw [compare_le_iff_le] at h₁ h₂ ⊢
        exact le_trans h₁ h₂

theorem cmpInd_not_lt {x y : Individual} (h : cmpInd y x ≠ .lt) :
    cmpInd x y ≠ .gt := by
  rw [cmpInd_swap]
  cases h₂ : cmpInd y x <;> simp_all [Ordering.swap]

theorem cmpInd_lt_le {x y : Individual} (h : cmpInd y x = .lt) :
    cmpInd y x ≠ .gt := by
  rw [h]
  simp

theorem insertInd_perm (x : Individual) (l : List Individual) :
    List.Perm (insertInd x l) (x :: l) := by
  induction l with
  | nil => simp [insertInd]
  | cons y l ih =>
    simp only [insertInd]
    by_cases h : cmpInd y x = .lt
    · rw [if_pos h]
      exact (ih.cons y).trans (List.Perm.swap x y l)
    · rw [if_neg h]

theorem sortInds_perm (l : List Individual) :
    List.Perm (sortInds l) l := by
  induction l with
  | nil => simp [sortInds]
  | cons x l ih =>
    simp only [sortInds]
    exact (insertInd_perm x (sortInds l)).trans (ih.cons x)

theorem insertInd_pairwise {x : Individual} {l : List Individual}
    (h : List.Pairwise (fun a b => cmpInd a b ≠ .gt) l) :
    List.Pairwise (fun a b => cmpInd a b ≠ .gt) (insertInd x l) := by
  induction l with
  | nil => simp [insertInd]
  | cons y l ih =>
    rcases List.pairwise_cons.mp h with ⟨hy, hl⟩
    simp only [insertInd]
    by_cases hlt : cmpInd y x = .lt
    · rw [if_pos hlt]
      refine List.pairwise_cons.mpr ⟨?_, ih hl⟩
      intro a ha
      have hmem := (insertInd_perm x l).mem_iff.mp ha
      rcases List.mem_cons.mp hmem with h₁ | h₁
      · rw [h₁]
        exact cmpInd_lt_le hlt
      · exact hy a h₁
    · rw [if_neg hlt]
      refine List.pairwise_cons.mpr ⟨?_, h⟩
      intro a ha
      have hxy : cmpInd x y ≠ .gt := cmpInd_not_lt hlt
      rcases List.mem_cons.mp ha with h₁ | h₁
      · rw [h₁]
        exact hxy
      · exact cmpInd_le_trans hxy (hy a h₁)

theorem sortInds_pairwise (l : List Individual) :
    List.Pairwise (fun a b => cmpInd a b ≠ .gt) (sortInds l) := by
  induction l with
  | nil => simp [sortInds]
  | cons x l ih => exact insertInd_pairwise ih

theorem insertInd_nan_end {x : Individual} (hx : x.fitness.isNan = true)
    (A N : List Individual) (hA : ∀ a ∈ A, a.fitness.isNan = false)
    (hN : ∀ a ∈ N, a.fitness.isNan = true) :
    insertInd x (A ++ N) = A ++ x :: N := by
  induction A with
  | nil =>
    cases N with
    | nil => simp [insertInd]
    | cons n N =>
      simp only [List.nil_append, insertInd]
      rw [if_neg (by simp [cmpInd_nan_nan (hN n (by simp)) hx])]
  | cons a A ih =>
    simp only [List.cons_append, insertInd, List.append_eq]
    rw [if_pos (cmpInd_num_nan (hA a (by simp)) hx),
      ih (fun b hb => hA b (by simp [hb]))]

theorem insertInd_num_append_nan {x : Individual}
    (hx : x.fitness.isNan = false) (A N : List Individual)
    (hN : ∀ a ∈ N, a.fitness.isNan = true) :
    insertInd x (A ++ N) = insertInd x A ++ N := by
  induction A with
  | nil =>
    cases N with
    | nil => simp [insertInd]
    | cons n N =>
      simp only [List.nil_append, insertInd]
      rw [if_neg (by simp [cmpInd_nan_num (hN n (by simp)) hx])]
      simp
  | cons a A ih =>
    simp only [List.cons_append, insertInd, List.append_eq]
    by_cases h : cmpInd a x = .lt
    · rw [if_pos h, if_pos h, ih, List.cons_append]
    · rw [if_neg h, if_neg h]
      simp

theorem sortInds_nan_split (l : List Individual) :
    ∃ A, sortInds l = A ++ l.filter (fun a => a.fitness.isNan) ∧
      ∀ a ∈ A, a.fitness.isNan = false := by
  induction l with
  | nil => exact ⟨[], by simp [sortInds], by simp⟩
  | cons x l ih =>
    obtain ⟨A, hA, hAn⟩ := ih
    have hfiltN : ∀ a ∈ l.filter (fun a => a.fitness.isNan),
        a.fitness.isNan = true := by
      intro a ha
      exact (List.mem_filter.mp ha).2
    by_cases hx : x.fitness.isNan = true
    · refine ⟨A, ?_, hAn⟩
      have : sortInds (x :: l) = insertInd x (sortInds l) := rfl
      rw [this, hA, insertInd_nan_end hx A _ hAn hfiltN]
      simp [List.filter_cons, hx]
    · refine ⟨insertInd x A, ?_, ?_⟩
      · have : sortInds (x :: l) = insertInd x (sortInds l) := rfl
        rw [this, hA, insertInd_num_append_nan (by simpa using hx) A _ hfiltN]
        simp [List.filter_cons, hx]
      · intro a ha
        rcases List.mem_cons.mp ((insertInd_perm x A).mem_iff.mp ha) with
          h₁ | h₁
        · rw [h₁]
          simpa using hx
        · exact hAn a h₁

theorem closestAux_mem (num : ℚ) :
    ∀ (x : Individual) (rest : List Individual),
      closestAux x num rest ∈ x :: rest := by
  intro x rest
  induction rest generalizing x with
  | nil => simp [closestAux]
  | cons y rest ih =>
    simp only [closestAux]
    by_cases h : (fleB x.fitness num && fgeB y.fitness num) = true
    · rw [if_pos h]
      simp
    · rw [if_neg h]
      exact List.mem_cons_of_mem x (ih y)

theorem closestAux_no_ge (num : ℚ) :
    ∀ (x : Individual) (rest : List Individual),
      (∀ a ∈ x :: rest, fgeB a.fitness num = false) →
      some (closestAux x num rest) = (x :: rest).getLast? := by
  intro x rest
  induction rest generalizing x with
  | nil => intro _; simp [closestAux]
  | cons y rest ih =>
    intro h
    have hy : fgeB y.fitness num = false := h y (by simp)
    simp only [closestAux]
    rw [if_neg (by simp [hy]), List.getLast?_cons_cons]
    exact ih y (fun a ha => h a (List.mem_cons_of_mem x ha))

theorem closestAux_no_le (num : ℚ) :
    ∀ (x : Individual) (rest : List Individual),
      (∀ a ∈ x :: rest, fleB a.fitness num = false) →
      some (closestAux x num rest) = (x :: rest).getLast? := by
  intro x rest
  induction rest generalizing x with
  | nil => intro _; simp [closestAux]
  | cons y rest ih =>
    intro h
    have hx : fleB x.fitness num = false := h x (by simp)
    simp only [closestAux]
    rw [if_neg (by simp [hx]), List.getLast?_cons_cons]
    exact ih y (fun a ha => h a (List.mem_cons_of_mem x ha))

theorem lookupKey_setKey_self (m : MapEntries) (op : OperatorKey)
    (tok : List Char) : lookupKey (setKey m op tok) op = some tok := by
  induction m with
  | nil => simp [setKey, lookupKey]
  | cons kv m ih =>
    obtain ⟨k, v⟩ := kv
    simp only [setKey]
    by_cases h : k = op
    · rw [if_pos h]
      simp [lookupKey]
    · rw [if_neg h]
      simp only [lookupKey]
      rw [if_neg h]
      exact ih

theorem lookupKey_setKey_other (m : MapEntries) (op op₁ : OperatorKey)
    (tok : List Char) (h : op₁ ≠ op) :
    lookupKey (setKey m op tok) op₁ = lookupKey m op₁ := by
  induction m with
  | nil =>
    simp only [setKey, lookupKey]
    rw [if_neg (fun hc => h hc.symm)]
  | cons kv m ih =>
    obtain ⟨k, v⟩ := kv
    simp only [setKey]
    by_cases hk : k = op
    · rw [if_pos hk]
      simp only [lookupKey]
      rw [if_neg (fun hc => h hc.symm), if_neg (fun hc => h (hc.symm.trans hk))]
    · rw [if_neg hk]
      simp only [lookupKey]
      by_cases hk₁ : k = op₁
      · rw [if_pos hk₁, if_pos hk₁]
      · rw [if_neg hk₁, if_neg hk₁]
        exact ih

theorem heron_term_nonneg (sq : ℚ → ℚ) (hsq : ∀ q, 0 ≤ q → 0 ≤ sq q)
    (X Y : ℚ) (hX : 0 ≤ X) : 0 ≤ 2 / sq X * sq |Y| :=
  mul_nonneg (div_nonneg (by norm_num) (hsq X hX)) (hsq _ (abs_nonneg Y))

theorem fitOdeLoop_nonneg (f : ℚ → ℚ → ℚ) (step : ℚ) :
    ∀ (fuel : Nat) (prev next : ℚ × ℚ) (rest : List (ℚ × ℚ))
      (curr : ℚ × ℚ) (acc v : ℚ), 0 ≤ acc →
      fitOdeLoop f step fuel prev next rest curr acc = some v → 0 ≤ v := by
  intro fuel
  induction fuel with
  | zero =>
    intro _ _ _ _ _ _ _ h
    simp [fitOdeLoop] at h
  | succ fuel ih =>
    intro prev next rest curr acc v hacc h
    simp only [fitOdeLoop] at h
    have hacc₁ : 0 ≤ acc + |(curr.1 - next.1) * (prev.2 - curr.2) -
        (curr.1 - prev.1) * (next.2 - curr.2)| / 2 :=
      add_nonneg hacc (by positivity)
    by_cases hc : next.1 ≤ (rkNext f curr step).1
    · rw [if_pos hc] at h
      cases rest with
      | nil =>
        have hv := Option.some.inj h
        rw [← hv]
        exact hacc₁
      | cons n₂ rest₁ => exact ih next n₂ rest₁ _ _ v hacc₁ h
    · rw [if_neg hc] at h
      exact ih prev next rest _ _ v hacc₁ h

theorem fitnessOde_nonneg (f : ℚ → ℚ → ℚ) (states : List (ℚ × ℚ))
    (step : ℚ) (fuel : Nat) (v : ℚ)
    (h : fitnessOde f states step fuel = some v) : 0 ≤ v := by
  cases states with
  | nil => simp [fitnessOde] at h
  | cons p states₁ =>
    cases states₁ with
    | nil =>
      have hv := Option.some.inj h
      rw [← hv]
    | cons n rest => exact fitOdeLoop_nonneg f step fuel p n rest p 0 v le_rfl h

theorem fitExprLoop_nonneg (f : ℚ → ℚ → ℚ) (sq : ℚ → ℚ)
    (hsq : ∀ q, 0 ≤ q → 0 ≤ sq q) :
    ∀ (fuel : Nat) (prevT nextT prevP nextP : ℚ) (restT restP : List ℚ)
      (curT curP acc v : ℚ), 0 ≤ acc →
      fitExprLoop f sq fuel prevT nextT prevP nextP restT restP
        curT curP acc = some v → 0 ≤ v := by
  intro fuel
  induction fuel with
  | zero =>
    intro _ _ _ _ _ _ _ _ _ _ _ h
    simp [fitExprLoop] at h
  | succ fuel ih =>
    intro prevT nextT prevP nextP restT restP curT curP acc v hacc h
    simp only [fitExprLoop] at h
    have hacc₁ : 0 ≤ acc + 2 /
        sq ((nextT - prevT) ^ 2 + (nextP - prevP) ^ 2) * sq
        |(sq ((curT - prevT) ^ 2 + (curP - prevP) ^ 2) +
            sq ((nextT - prevT) ^ 2 + (nextP - prevP) ^ 2) +
            sq ((nextT - curT) ^ 2 + (nextP - curP) ^ 2)) / 2 *
          ((sq ((curT - prevT) ^ 2 + (curP - prevP) ^ 2) +
              sq ((nextT - prevT) ^ 2 + (nextP - prevP) ^ 2) +
              sq ((nextT - curT) ^ 2 + (nextP - curP) ^ 2)) / 2 -
            sq ((curT - prevT) ^ 2 + (curP - prevP) ^ 2)) *
          ((sq ((curT - prevT) ^ 2 + (curP - prevP) ^ 2) +
              sq ((nextT - prevT) ^ 2 + (nextP - prevP) ^ 2) +
              sq ((nextT - curT) ^ 2 + (nextP - curP) ^ 2)) / 2 -
            sq ((nextT - prevT) ^ 2 + (nextP - prevP) ^ 2)) *
          ((sq ((curT - prevT) ^ 2 + (curP - prevP) ^ 2) +
              sq ((nextT - prevT) ^ 2 + (nextP - prevP) ^ 2) +
              sq ((nextT - curT) ^ 2 + (nextP - curP) ^ 2)) / 2 -
            sq ((nextT - curT) ^ 2 + (nextP - curP) ^ 2))| :=
      add_nonneg hacc (heron_term_nonneg sq hsq _ _ (by positivity))
    split at h
    · split at h
      · exact ih _ _ _ _ _ _ _ _ _ v hacc₁ h
      · have hv := Option.some.inj h
        rw [← hv]
        exact hacc₁
    · exact ih _ _ _ _ _ _ _ _ _ v hacc₁ h

theorem fitnessExpr_nonneg (f : ℚ → ℚ → ℚ) (sq : ℚ → ℚ)
    (hsq : ∀ q, 0 ≤ q → 0 ≤ sq q) (timeData positionData : List ℚ)
    (fuel : Nat) (v : ℚ)
    (h : fitnessExpr f sq timeData positionData fuel = some v) : 0 ≤ v := by
  unfold fitnessExpr at h
  split at h
  · exact absurd h (by simp)
  · split at h
    · exact absurd h (by simp)
    · exact absurd h (by simp)
    · have hv := Option.some.inj h
      rw [← hv]
    · exact fitExprLoop_nonneg f sq hsq fuel _ _ _ _ _ _ _ _ 0 v le_rfl h
    · exact absurd h (by simp)

theorem mutateOde_var_mem {α : Type} (self : List (Op α)) (v : Bool)
    (r₁ r₂ : Nat) :
    (if v then Op.time else Op.position : Op α) ∈ mutateOde self v r₁ r₂ := by
  cases v <;>
    simp [mutateOde, crossoverOde, subExpr, spanOf, splice, spanEnd,
      Op.delta, Nat.mod_one]

/-- C1: every Expression produced by `generate`, `sub_expr`, `crossover`
of two well-formed Expressions, or `mutate` of a well-formed Expression
satisfies the arity-balance invariant (`wfB`: pending-arity scan from `1`
reaching `0` exactly at the last token), and consequently `eval` on such
an Expression never raises an `EvaluationError` — it returns a value —
for every time and position input. -/
theorem c1_wellformedness_closure {α : Type} :
    (∀ (fuel : Nat) (cs : List (GenChoice α)) (e : List (Op α)),
      generate fuel cs = some e →
      wfB e = true ∧ ∀ t x : α, ∃ v, evalE t x e = some v) ∧
    (∀ (ops : List (Op α)) (r : Nat), wfB ops = true →
      wfB (subExpr ops r) = true ∧
      ∀ t x : α, ∃ v, evalE t x (subExpr ops r) = some v) ∧
    (∀ (self other : List (Op α)) (r₁ r₂ : Nat), wfB self = true →
      wfB other = true → wfB (crossoverOde self other r₁ r₂) = true ∧
      ∀ t x : α, ∃ v, evalE t x (crossoverOde self other r₁ r₂) = some v) ∧
    (∀ (self : List (Op α)) (w : Bool) (r₁ r₂ : Nat), wfB self = true →
      wfB (mutateOde self w r₁ r₂) = true ∧
      ∀ t x : α, ∃ v, evalE t x (mutateOde self w r₁ r₂) = some v) := by
  refine ⟨?_, ?_, ?_, ?_⟩
  · intro fuel cs e hg
    have hwf := generate_wf hg
    exact ⟨hwf, fun t x => evalE_wf t x (WF_of_wfB hwf)⟩
  · intro ops r h
    have hwf := (subExpr_spec (WF_of_wfB h) r).1
    exact ⟨wfB_of_WF hwf, fun t x => evalE_wf t x hwf⟩
  · intro self other r₁ r₂ h ho
    have hwf := crossoverOde_wf (WF_of_wfB h) (WF_of_wfB ho) r₁ r₂
    exact ⟨wfB_of_WF hwf, fun t x => evalE_wf t x hwf⟩
  · intro self w r₁ r₂ h
    have hwf := mutateOde_wf (WF_of_wfB h) w r₁ r₂
    exact ⟨wfB_of_WF hwf, fun t x => evalE_wf t x hwf⟩

/-- Witness for C1 at a concrete generated expression over `Int`. -/
theorem c1_wellformedness_closure_witness :
    generate 3 [GenChoice.fromMap (Op.binary (fun a b : Int => a + b)),
      GenChoice.time, GenChoice.position] =
      some [Op.binary (fun a b : Int => a + b), Op.time, Op.position] ∧
    wfB [Op.binary (fun a b : Int => a + b), Op.time, Op.position] = true ∧
    ∃ v, evalE (7 : Int) 2
      [Op.binary (fun a b : Int => a + b), Op.time, Op.position] = some v := by
  have hg : generate 3
      [GenChoice.fromMap (Op.binary (fun a b : Int => a + b)),
        GenChoice.time, GenChoice.position] =
      some [Op.binary (fun a b : Int => a + b), Op.time, Op.position] := rfl
  have h := (@c1_wellformedness_closure Int).1 _ _ _ hg
  exact ⟨hg, h.1, h.2 7 2⟩

/-- C2 counterexample: with the sorted population of fitnesses `1, 2, 3`,
the sampled value `3/2` selects the Individual of fitness `1` (the `prev`
of the bracketing pair), not the first Individual of fitness `≥ 3/2`
(fitness `2`) as the claim states; and a sample above every fitness makes
`closest` return the worst Individual (fitness `3`), not the best. -/
theorem c2_selection_counterexample :
    closest [⟨FVal.num 1, [Op.time]⟩, ⟨FVal.num 2, [Op.time]⟩,
      ⟨FVal.num 3, [Op.time]⟩] (3 / 2) = some ⟨FVal.num 1, [Op.time]⟩ ∧
    closestSpec [⟨FVal.num 1, [Op.time]⟩, ⟨FVal.num 2, [Op.time]⟩,
      ⟨FVal.num 3, [Op.time]⟩] (3 / 2) = some ⟨FVal.num 2, [Op.time]⟩ ∧
    closest [⟨FVal.num 1, [Op.time]⟩, ⟨FVal.num 2, [Op.time]⟩,
      ⟨FVal.num 3, [Op.time]⟩] 5 = some ⟨FVal.num 3, [Op.time]⟩ ∧
    closestSpec [⟨FVal.num 1, [Op.time]⟩, ⟨FVal.num 2, [Op.time]⟩,
      ⟨FVal.num 3, [Op.time]⟩] 5 = some ⟨FVal.num 1, [Op.time]⟩ ∧
    FVal.num 1 ≠ FVal.num 2 ∧ FVal.num 3 ≠ FVal.num 1 := by
  refine ⟨?_, ?_, ?_, ?_, ?_, ?_⟩
  · norm_num [closest, closestAux, fleB, fgeB]
  · norm_num [closestSpec, fgeB, List.find?]
  · norm_num [closest, closestAux, fleB, fgeB]
  · norm_num [closestSpec, fgeB, List.find?]
  · intro h
    exact absurd (FVal.num.inj h) (by norm_num)
  · intro h
    exact absurd (FVal.num.inj h) (by norm_num)

theorem closestAux_first_pair (num : ℚ) :
    ∀ (rest : List Individual) (x : Individual),
      (∃ A y rest₁, x :: rest = A ++ closestAux x num rest :: y :: rest₁ ∧
        fleB (closestAux x num rest).fitness num = true ∧
        fgeB y.fitness num = true ∧
        List.Chain' (fun a b =>
          (fleB a.fitness num && fgeB b.fitness num) = false)
          (A ++ [closestAux x num rest])) ∨
      (List.Chain' (fun a b =>
        (fleB a.fitness num && fgeB b.fitness num) = false) (x :: rest) ∧
        (x :: rest).getLast? = some (closestAux x num rest)) := by
  intro rest
  induction rest with
  | nil =>
    intro x
    right
    exact ⟨List.chain'_singleton x, by simp [closestAux]⟩
  | cons y rest₁ ih =>
    intro x
    by_cases hbr : (fleB x.fitness num && fgeB y.fitness num) = true
    · left
      have hx : closestAux x num (y :: rest₁) = x := by
        simp only [closestAux]
        rw [if_pos hbr]
      refine ⟨[], y, rest₁, by rw [hx, List.nil_append], ?_, ?_, ?_⟩
      · rw [hx]
        exact ((Bool.and_eq_true _ _).mp hbr).1
      · exact ((Bool.and_eq_true _ _).mp hbr).2
      · rw [hx]
        exact List.chain'_singleton x
    · have hbf : (fleB x.fitness num && fgeB y.fitness num) = false :=
        Bool.eq_false_iff.mpr hbr
      have hx : closestAux x num (y :: rest₁) = closestAux y num rest₁ := by
        simp only [closestAux]
        rw [if_neg hbr]
      rcases ih y with ⟨A, y₂, rest₂, heq, hfle, hfge, hchain⟩ |
        ⟨hchain, hlast⟩
      · left
        refine ⟨x :: A, y₂, rest₂, ?_, ?_, hfge, ?_⟩
        · rw [hx, List.cons_append, ← heq]
        · rw [hx]
          exact hfle
        · rw [hx, List.cons_append]
          cases A with
          | nil =>
            have hy : closestAux y num rest₁ = y := by
              have hh := congrArg List.head? heq
              simpa using hh.symm
            rw [List.nil_append] at hchain ⊢
            rw [hy] at hchain ⊢
            exact List.chain'_cons.mpr ⟨hbf, hchain⟩
          | cons a A₁ =>
            have hay : a = y := by
              have hh := congrArg List.head? heq
              simpa using hh.symm
            rw [List.cons_append] at hchain ⊢
            refine List.chain'_cons.mpr ⟨?_, hchain⟩
            rw [hay]
            exact hbf
      · right
        refine ⟨List.chain'_cons.mpr ⟨hbf, hchain⟩, ?_⟩
        rw [hx, List.getLast?_cons_cons]
        exact hlast

/-- C2 amended: for each sampled value `num`, the selected Individual is
the `prev` of the FIRST adjacent pair anywhere in the population with
`prev.fitness ≤ num ≤ next.fitness` (no earlier adjacent pair brackets
`num`); when no pair matches — in particular when `num` is below every
fitness or above every fitness — `closest` returns the LAST Individual
of the (sorted) population, not the best; the selected Individual is
always a member of the population. -/
theorem c2_selection_amended :
    (∀ (pop : List Individual) (num : ℚ) (ind : Individual),
      closest pop num = some ind →
      (∃ A y rest, pop = A ++ ind :: y :: rest ∧
        fleB ind.fitness num = true ∧ fgeB y.fitness num = true ∧
        List.Chain' (fun a b =>
          (fleB a.fitness num && fgeB b.fitness num) = false)
          (A ++ [ind])) ∨
      (List.Chain' (fun a b =>
        (fleB a.fitness num && fgeB b.fitness num) = false) pop ∧
        pop.getLast? = some ind)) ∧
    (∀ (x : Individual) (rest : List Individual) (num : ℚ),
      (∀ a ∈ x :: rest, fgeB a.fitness num = false) →
      closest (x :: rest) num = (x :: rest).getLast?) ∧
    (∀ (x : Individual) (rest : List Individual) (num : ℚ),
      (∀ a ∈ x :: rest, fleB a.fitness num = false) →
      closest (x :: rest) num = (x :: rest).getLast?) ∧
    (∀ (x y : Individual) (rest : List Individual) (num : ℚ),
      fleB x.fitness num = true → fgeB y.fitness num = true →
      closest (x :: y :: rest) num = some x) ∧
    (∀ (pop : List Individual) (num : ℚ) (ind : Individual),
      closest pop num = some ind → ind ∈ pop) := by
  refine ⟨?_, ?_, ?_, ?_, ?_⟩
  · intro pop num ind h
    cases pop with
    | nil => simp [closest] at h
    | cons x rest =>
      have hx := Option.some.inj h
      rw [← hx]
      exact closestAux_first_pair num rest x
  · intro x rest num h
    exact closestAux_no_ge num x rest h
  · intro x rest num h
    exact closestAux_no_le num x rest h
  · intro x y rest num h₁ h₂
    simp [closest, closestAux, h₁, h₂]
  · intro pop num ind h
    cases pop with
    | nil => simp [closest] at h
    | cons x rest =>
      have hx := Option.some.inj h
      rw [← hx]
      exact closestAux_mem num x rest

/-- Witness for C2 amended: with sorted fitnesses `1, 2, 3` and sample
`5/2`, the selected Individual of fitness `2` is the `prev` of the first
bracketing pair, which is NOT the head pair; a bracketing head pair
selects the head; a sample above every fitness selects the last
Individual. -/
theorem c2_selection_amended_witness :
    ((∃ (A : List Individual) (y : Individual) (rest : List Individual),
      ([⟨FVal.num 1, [Op.time]⟩, ⟨FVal.num 2, [Op.time]⟩,
        ⟨FVal.num 3, [Op.time]⟩] : List Individual) =
        A ++ (⟨FVal.num 2, [Op.time]⟩ : Individual) :: y :: rest ∧
      fleB (⟨FVal.num 2, [Op.time]⟩ : Individual).fitness (5 / 2) = true ∧
      fgeB y.fitness (5 / 2) = true ∧
      List.Chain' (fun a b =>
        (fleB a.fitness (5 / 2) && fgeB b.fitness (5 / 2)) = false)
        (A ++ [⟨FVal.num 2, [Op.time]⟩])) ∨
    (List.Chain' (fun a b =>
      (fleB a.fitness (5 / 2) && fgeB b.fitness (5 / 2)) = false)
      ([⟨FVal.num 1, [Op.time]⟩, ⟨FVal.num 2, [Op.time]⟩,
        ⟨FVal.num 3, [Op.time]⟩] : List Individual) ∧
      ([⟨FVal.num 1, [Op.time]⟩, ⟨FVal.num 2, [Op.time]⟩,
        (⟨FVal.num 3, [Op.time]⟩ : Individual)]).getLast? =
        some ⟨FVal.num 2, [Op.time]⟩)) ∧
    closest [⟨FVal.num 1, [Op.time]⟩, ⟨FVal.num 2, [Op.time]⟩] (3 / 2) =
      some ⟨FVal.num 1, [Op.time]⟩ ∧
    closest [⟨FVal.num 1, [Op.time]⟩, ⟨FVal.num 2, [Op.time]⟩] 7 =
      ([⟨FVal.num 1, [Op.time]⟩,
        (⟨FVal.num 2, [Op.time]⟩ : Individual)]).getLast? := by
  refine ⟨?_, ?_, ?_⟩
  · exact c2_selection_amended.1
      [⟨FVal.num 1, [Op.time]⟩, ⟨FVal.num 2, [Op.time]⟩,
        ⟨FVal.num 3, [Op.time]⟩] (5 / 2) ⟨FVal.num 2, [Op.time]⟩
      (by norm_num [closest, closestAux, fleB, fgeB])
  · exact c2_selection_amended.2.2.2.1 _ _ [] (3 / 2)
      (by norm_num [fleB]) (by norm_num [fgeB])
  · exact c2_selection_amended.2.1 _ _ 7
      (by intro a ha
          rcases List.mem_cons.mp ha with h | h
          · rw [h]; norm_num [fgeB]
          · rcases List.mem_singleton.mp h with h₁
            rw [h₁]; norm_num [fgeB])

/-- C3 counterexample: with a single-Individual population holding the
bare constant `5`, the offspring appended by `evolve` is the constant
expression `[5]`, but no run of `mutate(crossover(parent1.expr,
parent2.expr))` — which always embeds a reserved variable — can produce
`[5]`; so offspring are not produced by the mutate-after-crossover
pipeline the claim states. -/
theorem c3_offspring_counterexample :
    evolve [⟨FVal.num 0, [Op.const (5 : ℚ)]⟩] (fun _ => FVal.num 0)
      (fun _ => (0, 0)) (fun _ => (0, 0)) =
      some [⟨FVal.num 0, [Op.const (5 : ℚ)]⟩] ∧
    ¬ ∃ (v : Bool) (s₁ s₂ s₃ s₄ : Nat),
      mutateOde (crossoverOde [Op.const (5 : ℚ)] [Op.const (5 : ℚ)] s₁ s₂)
        v s₃ s₄ = [Op.const (5 : ℚ)] := by
  constructor
  · rfl
  · rintro ⟨v, s₁, s₂, s₃, s₄, h⟩
    have hmem := mutateOde_var_mem
      (crossoverOde [Op.const (5 : ℚ)] [Op.const (5 : ℚ)] s₁ s₂) v s₃ s₄
    rw [h] at hmem
    cases v <;> simp at hmem

/-- C3 amended: every Individual appended beyond the elite fraction
during `evolve` is produced as `crossover(parent1.expr,
sub_expr(parent2.expr))` — a random balanced span of the first selected
parent replaced by a random sub-expression of the second selected parent,
with NO mutation step — and its fitness is recomputed from its expression
before it is appended. -/
theorem c3_offspring_amended (pop : List Individual)
    (fitFn : List (Op ℚ) → FVal) (samples : Nat → ℚ × ℚ)
    (choices : Nat → Nat × Nat) (out : List Individual) (hne : pop ≠ [])
    (hev : evolve pop fitFn samples choices = some out) :
    ∀ ind ∈ out.drop (pop.length / 10),
      ∃ i, i < pop.length - pop.length / 10 ∧
        ind.expr = splice
          ((closest (sortInds pop) (samples i).1).getD defaultInd).expr
          (subExpr
            ((closest (sortInds pop) (samples i).2).getD defaultInd).expr
            (choices i).1)
          (choices i).2 ∧
        ind.fitness = fitFn ind.expr := by
  have hperm := sortInds_perm pop
  have hslen : (sortInds pop).length = pop.length := hperm.length_eq
  have htlen : ((sortInds pop).take (pop.length / 10)).length =
      pop.length / 10 := by
    rw [List.length_take, hslen]
    have := Nat.div_le_self pop.length 10
    omega
  have hout : out = (sortInds pop).take (pop.length / 10) ++
      (List.range (pop.length - pop.length / 10)).map (fun i =>
        mkOffspring (sortInds pop) fitFn (samples i).1 (samples i).2
          (choices i).1 (choices i).2) := by
    cases pop with
    | nil => exact absurd rfl hne
    | cons p pop₁ =>
      simp only [evolve] at hev
      exact (Option.some.inj hev).symm
  intro ind hind
  rw [hout, List.drop_left' htlen] at hind
  obtain ⟨i, hir, hi⟩ := List.mem_map.mp hind
  refine ⟨i, List.mem_range.mp hir, ?_, ?_⟩
  · rw [← hi]
    rfl
  · rw [← hi]
    rfl

/-- Witness for C3 amended on a one-Individual population, applied to
its single offspring. -/
theorem c3_offspring_amended_witness :
    ∃ i, i < ([(⟨FVal.num 0, [Op.time]⟩ : Individual)]).length -
        ([(⟨FVal.num 0, [Op.time]⟩ : Individual)]).length / 10 ∧
      (⟨FVal.num 0, [Op.time]⟩ : Individual).expr = splice
        ((closest (sortInds [⟨FVal.num 0, [Op.time]⟩])
          ((fun _ : Nat => ((0 : ℚ), (0 : ℚ))) i).1).getD defaultInd).expr
        (subExpr
          ((closest (sortInds [⟨FVal.num 0, [Op.time]⟩])
            ((fun _ : Nat => ((0 : ℚ), (0 : ℚ))) i).2).getD
              defaultInd).expr
          ((fun _ : Nat => ((0 : Nat), (0 : Nat))) i).1)
        ((fun _ : Nat => ((0 : Nat), (0 : Nat))) i).2 ∧
      (⟨FVal.num 0, [Op.time]⟩ : Individual).fitness =
        (fun _ => FVal.num 0)
          (⟨FVal.num 0, [Op.time]⟩ : Individual).expr :=
  c3_offspring_amended [⟨FVal.num 0, [Op.time]⟩] (fun _ => FVal.num 0)
    (fun _ => (0, 0)) (fun _ => (0, 0)) [⟨FVal.num 0, [Op.time]⟩]
    (by simp) rfl ⟨FVal.num 0, [Op.time]⟩ (by simp)

/-- C4: `evolve` keeps the first `size / 10` Individuals of the sorted
population — the lowest-fitness ones — unchanged (same fitness field and
expression, no recomputation) as the head of the new generation, and
every other slot of the new generation is a freshly built offspring whose
fitness is recomputed from its expression. -/
theorem c4_elitism (pop : List Individual) (fitFn : List (Op ℚ) → FVal)
    (samples : Nat → ℚ × ℚ) (choices : Nat → Nat × Nat)
    (out : List Individual) (hne : pop ≠ [])
    (hev : evolve pop fitFn samples choices = some out) :
    out.length = pop.length ∧
    out.take (pop.length / 10) = (sortInds pop).take (pop.length / 10) ∧
    List.Perm (sortInds pop) pop ∧
    (∀ x ∈ out.take (pop.length / 10),
      ∀ y ∈ (sortInds pop).drop (pop.length / 10), cmpInd x y ≠ .gt) ∧
    (∀ x ∈ out.take (pop.length / 10), x ∈ pop) ∧
    (out.drop (pop.length / 10)).length = pop.length - pop.length / 10 ∧
    (∀ ind ∈ out.drop (pop.length / 10), ind.fitness = fitFn ind.expr) := by
  have hperm := sortInds_perm pop
  have hslen : (sortInds pop).length = pop.length := hperm.length_eq
  have hkle : pop.length / 10 ≤ pop.length := Nat.div_le_self _ _
  have htlen : ((sortInds pop).take (pop.length / 10)).length =
      pop.length / 10 := by
    rw [List.length_take, hslen]
    omega
  have hout : out = (sortInds pop).take (pop.length / 10) ++
      (List.range (pop.length - pop.length / 10)).map (fun i =>
        mkOffspring (sortInds pop) fitFn (samples i).1 (samples i).2
          (choices i).1 (choices i).2) := by
    cases pop with
    | nil => exact absurd rfl hne
    | cons p pop₁ =>
      simp only [evolve] at hev
      exact (Option.some.inj hev).symm
  have htake : out.take (pop.length / 10) =
      (sortInds pop).take (pop.length / 10) := by
    rw [hout, List.take_left' htlen]
  have hdropped : out.drop (pop.length / 10) =
      (List.range (pop.length - pop.length / 10)).map (fun i =>
        mkOffspring (sortInds pop) fitFn (samples i).1 (samples i).2
          (choices i).1 (choices i).2) := by
    rw [hout, List.drop_left' htlen]
  have hpwsplit : List.Pairwise (fun a b => cmpInd a b ≠ .gt)
      ((sortInds pop).take (pop.length / 10) ++
        (sortInds pop).drop (pop.length / 10)) := by
    rw [List.take_append_drop]
    exact sortInds_pairwise pop
  refine ⟨?_, htake, hperm, ?_, ?_, ?_, ?_⟩
  · rw [hout, List.length_append, htlen, List.length_map,
      List.length_range]
    omega
  · intro x hx y hy
    rw [htake] at hx
    exact (List.pairwise_append.mp hpwsplit).2.2 x hx y hy
  · intro x hx
    rw [htake] at hx
    exact hperm.mem_iff.mp (List.take_subset _ _ hx)
  · rw [hdropped, List.length_map, List.length_range]
  · intro ind hind
    rw [hdropped] at hind
    obtain ⟨i, _, hi⟩ := List.mem_map.mp hind
    rw [← hi]
    rfl

/-- Witness for C4 on a one-Individual population. -/
theorem c4_elitism_witness :
    List.Perm (sortInds [⟨FVal.num 0, [Op.time]⟩])
      [⟨FVal.num 0, [Op.time]⟩] :=
  (c4_elitism [⟨FVal.num 0, [Op.time]⟩] (fun _ => FVal.num 0)
    (fun _ => (0, 0)) (fun _ => (0, 0)) [⟨FVal.num 0, [Op.time]⟩]
    (by simp) rfl).2.2.1

/-- C5: the Individual comparator is a total order by ascending fitness —
reflexive up to equality of the comparison, antisymmetric under swap,
transitive — in which a `NaN` fitness compares greater than every
non-`NaN` fitness and two `NaN` fitnesses compare equal; consequently the
stable sort by this comparator produces a permutation, pairwise-ordered,
in which all `NaN`-fitness Individuals form the final segment in their
original relative order (stability of ties among `NaN`s), strictly after
every non-`NaN` Individual. -/
theorem c5_ordering_totality :
    (∀ a b : Individual, a.fitness.isNan = true → b.fitness.isNan = true →
      cmpInd a b = .eq) ∧
    (∀ a b : Individual, a.fitness.isNan = true →
      b.fitness.isNan = false → cmpInd a b = .gt) ∧
    (∀ a : Individual, cmpInd a a = .eq) ∧
    (∀ a b : Individual, cmpInd a b = (cmpInd b a).swap) ∧
    (∀ a b c : Individual, cmpInd a b ≠ .gt → cmpInd b c ≠ .gt →
      cmpInd a c ≠ .gt) ∧
    (∀ l : List Individual,
      List.Perm (sortInds l) l ∧
      List.Pairwise (fun a b => cmpInd a b ≠ .gt) (sortInds l) ∧
      ∃ A, sortInds l = A ++ l.filter (fun a => a.fitness.isNan) ∧
        ∀ a ∈ A, a.fitness.isNan = false) :=
  ⟨fun _ _ => cmpInd_nan_nan, fun _ _ => cmpInd_nan_num, cmpInd_self,
    cmpInd_swap, fun _ _ _ => cmpInd_le_trans,
    fun l => ⟨sortInds_perm l, sortInds_pairwise l, sortInds_nan_split l⟩⟩

/-- Witness for C5: a `NaN` fitness compares greater than a numeric one,
at a concrete pair of Individuals. -/
theorem c5_ordering_totality_witness :
    cmpInd ⟨FVal.nan, []⟩ ⟨FVal.num 1, []⟩ = .gt :=
  c5_ordering_totality.2.1 ⟨FVal.nan, []⟩ ⟨FVal.num 1, []⟩ rfl rfl

/-- C6: `eval` processes tokens in reverse with a value stack, and for a
binary operator the first popped value is the evaluation of the operand
immediately following the operator in prefix order, the pushed result
being `f arg1 arg2`; in particular `[SUB, TIME, POS]` at time `5`,
position `2` evaluates to `3` (that is `5 - 2`, not `2 - 5`). -/
theorem c6_binary_operand_order :
    evalE (5 : ℚ) 2 [Op.binary (fun a b => a - b), Op.time, Op.position] =
      some 3 ∧
    (∀ (t x : ℚ) (f : ℚ → ℚ → ℚ) (e₁ e₂ : List (Op ℚ)) (v₁ v₂ : ℚ),
      wfB e₁ = true → wfB e₂ = true → evalE t x e₁ = some v₁ →
      evalE t x e₂ = some v₂ →
      evalE t x (Op.binary f :: (e₁ ++ e₂)) = some (f v₁ v₂)) := by
  constructor
  · norm_num [evalE, runRev, stepOp]
  · intro t x f e₁ e₂ v₁ v₂ h₁ h₂ hv₁ hv₂
    exact evalE_binary_decomp t x f (WF_of_wfB h₁) (WF_of_wfB h₂) hv₁ hv₂

/-- Witness for C6 at the concrete operand lists `[TIME]` and `[POS]`. -/
theorem c6_binary_operand_order_witness :
    evalE (5 : ℚ) 2
      (Op.binary (fun a b => a - b) :: ([Op.time] ++ [Op.position])) =
      some ((fun a b : ℚ => a - b) 5 2) :=
  c6_binary_operand_order.2 5 2 (fun a b => a - b) [Op.time] [Op.position]
    5 2 rfl rfl rfl rfl

/-- C7 counterexample: `OperatorMap::insert` accepts the empty token and
accepts a token equal to the reserved `TIME` token, both of which the
claim's token rules (non-empty, no reserved collision) require to be
rejected. -/
theorem c7_insert_counterexample :
    (insertOp mapNew (OperatorKey.unary 0) []).isSome = true ∧
    specTokenValid [] = false ∧
    (insertOp mapNew (OperatorKey.unary 0) timeToken).isSome = true ∧
    specTokenValid timeToken = false := by
  refine ⟨rfl, rfl, ?_, ?_⟩ <;> rfl

/-- C7 amended: `insert` fails if and only if the token holds a
non-alphanumeric character or starts with a numeric character — the empty
token and tokens colliding with the reserved `TIME`/`POS` tokens are NOT
rejected — and on success the mapping is recorded, re-insertion of the
same operator overwriting its previous token while other operators'
bindings are untouched. -/
theorem c7_insert_amended :
    (∀ (m : MapEntries) (op : OperatorKey) (tok : List Char),
      insertOp m op tok = none ↔
        (tok.all rustIsAlphanumeric = false ∨
          startsWithNumeric tok = true)) ∧
    (∀ (m m₁ : MapEntries) (op : OperatorKey) (tok : List Char),
      insertOp m op tok = some m₁ →
        lookupKey m₁ op = some tok ∧
        ∀ op₁, op₁ ≠ op → lookupKey m₁ op₁ = lookupKey m op₁) := by
  constructor
  · intro m op tok
    cases h₁ : tok.all rustIsAlphanumeric <;>
      cases h₂ : startsWithNumeric tok <;> simp [insertOp, h₁, h₂]
  · intro m m₁ op tok h
    simp only [insertOp] at h
    split at h
    · exact absurd h (by simp)
    · split at h
      · exact absurd h (by simp)
      · have hm := Option.some.inj h
        rw [← hm]
        exact ⟨lookupKey_setKey_self m op tok,
          fun op₁ h₁ => lookupKey_setKey_other m op op₁ tok h₁⟩

/-- Witness for C7 amended: inserting token `COS` for a unary operator
succeeds and the binding is recorded. -/
theorem c7_insert_amended_witness :
    lookupKey (setKey mapNew (OperatorKey.unary 0) ['C', 'O', 'S'])
      (OperatorKey.unary 0) = some ['C', 'O', 'S'] ∧
    lookupKey (setKey mapNew (OperatorKey.unary 0) ['C', 'O', 'S'])
      OperatorKey.time = lookupKey mapNew OperatorKey.time :=
  ⟨(c7_insert_amended.2 mapNew _ (OperatorKey.unary 0) ['C', 'O', 'S']
      rfl).1,
    (c7_insert_amended.2 mapNew _ (OperatorKey.unary 0) ['C', 'O', 'S']
      rfl).2 OperatorKey.time (by simp)⟩

/-- C8: for a crossover on a well-formed `self` of length `L`, with `s`
the length of the replaced span of `self` and `o` the length of the span
inserted from `other`, the result has length exactly `L - s + o`. -/
theorem c8_length_algebra {α : Type} (self other : List (Op α))
    (r₁ r₂ : Nat) (h : wfB self = true) :
    (crossoverOde self other r₁ r₂).length =
      self.length - (subExpr self r₁).length +
        (subExpr other r₂).length :=
  splice_length (WF_of_wfB h) (subExpr other r₂) r₁

/-- Witness for C8 at concrete expressions over `Int`. -/
theorem c8_length_algebra_witness :
    (crossoverOde [Op.time (α := Int)]
      [Op.binary (fun a b : Int => a + b), Op.time, Op.position] 0
      0).length =
      ([Op.time (α := Int)]).length -
        (subExpr [Op.time (α := Int)] 0).length +
        (subExpr [Op.binary (fun a b : Int => a + b), Op.time,
          Op.position] 0).length :=
  c8_length_algebra [Op.time]
    [Op.binary (fun a b : Int => a + b), Op.time, Op.position] 0 0 rfl

/-- C9: on a valid dataset (equal-length, at least two samples, strictly
increasing times) with a positive step, any value returned by `fitness`
is nonnegative — each per-segment contribution is an absolute value
divided by two (`ode.rs`) or a Heron-formula altitude built from square
roots of nonnegative quantities (`expr.rs`), and the accumulator starts
at zero. -/
theorem c9_fitness_nonneg :
    (∀ (f : ℚ → ℚ → ℚ) (states : List (ℚ × ℚ)) (step : ℚ) (fuel : Nat)
      (v : ℚ), 2 ≤ states.length →
      states.Chain' (fun a b => a.1 < b.1) → 0 < step →
      fitnessOde f states step fuel = some v → 0 ≤ v) ∧
    (∀ (f : ℚ → ℚ → ℚ) (sq : ℚ → ℚ), (∀ q, 0 ≤ q → 0 ≤ sq q) →
      ∀ (timeData positionData : List ℚ) (fuel : Nat) (v : ℚ),
        timeData.length = positionData.length → 2 ≤ timeData.length →
        timeData.Chain' (· < ·) →
        fitnessExpr f sq timeData positionData fuel = some v → 0 ≤ v) := by
  constructor
  · intro f states step fuel v _ _ _ h
    exact fitnessOde_nonneg f states step fuel v h
  · intro f sq hsq timeData positionData fuel v _ _ _ h
    exact fitnessExpr_nonneg f sq hsq timeData positionData fuel v h

/-- Witness for C9 on the two-sample dataset `(0,0), (1,1)` with the
zero derivative function and step `1`. -/
theorem c9_fitness_nonneg_witness :
    fitnessOde (fun _ _ => (0 : ℚ)) [(0, 0), (1, 1)] 1 1 = some 0 ∧
    (0 : ℚ) ≤ 0 := by
  have hcomp : fitnessOde (fun _ _ => (0 : ℚ)) [(0, 0), (1, 1)] 1 1 =
      some 0 := by
    norm_num [fitnessOde, fitOdeLoop, rkNext]
  exact ⟨hcomp, c9_fitness_nonneg.1 (fun _ _ => 0) [(0, 0), (1, 1)] 1 1 0
    (by norm_num) (by norm_num [List.chain'_cons]) (by norm_num) hcomp⟩

/-- C10: a dataset of exactly one sample passes the validation of
`fitness`, the accumulation loop body never runs, and the returned
fitness is exactly `0` — in both the `expr.rs` and the `ode.rs`
version. -/
theorem c10_single_sample :
    (∀ (f : ℚ → ℚ → ℚ) (sq : ℚ → ℚ) (t p : ℚ) (fuel : Nat),
      fitnessExpr f sq [t] [p] fuel = some 0) ∧
    (∀ (f : ℚ → ℚ → ℚ) (t p step : ℚ) (fuel : Nat),
      fitnessOde f [(t, p)] step fuel = some 0) :=
  ⟨fun _ _ _ _ _ => rfl, fun _ _ _ _ _ => rfl⟩

end GeneticOde
